import Mathlib

/-!
Verification development for the Chamsin news pipeline
(`scripts/generate_live.py`): a shallow embedding of the normalizer,
enricher, scorer, deduplicator, diversity compressor, projector and feed
fetcher, together with theorems about them.

Modelling conventions:
* Python floats are modelled as `ℚ` (exact rationals); every score is
  therefore finite by construction.
* `pow(0.5, x)` (the recency decay) is an abstract function parameter
  `hp : ℚ → ℚ`: no theorem below depends on its values.
* Regex searching of configured boost terms is an abstract parameter
  `rs : String → String → Bool` (pattern, text); the fixed regexes of the
  source (tracking-parameter removal, tag stripping, whitespace collapse,
  word-boundary acronym search, domain extraction) are embedded directly
  as character-list scanners with Python `re.sub`/`re.search` semantics.
* Timestamp strings are modelled by their parse status and age in hours
  relative to the run time (`PubDate`): an empty `published_at` is
  `absent`, a non-empty unparseable one is `invalid`, a parseable one is
  `valid age`.
* The md5 hash of the joined deduplication key parts is modelled by the
  list of key parts itself (md5 treated as injective).
* `.lower()` / `.upper()` are modelled with `Char.toLower`/`Char.toUpper`
  (ASCII); all concrete inputs used below are ASCII.
-/

set_option linter.unusedVariables false

/-- Python `pat in s` on lists of characters: `chStarts p l` is true iff
`p` is an initial segment of `l`. -/
def chStarts : List Char → List Char → Bool
  | [], _ => true
  | _ :: _, [] => false
  | p :: ps, c :: cs => p == c && chStarts ps cs

/-- Python substring containment `pat in s` over character lists. -/
def chHas (pat : List Char) : List Char → Bool
  | [] => pat.isEmpty
  | c :: cs => chStarts pat (c :: cs) || chHas pat cs

/-- Python `pat in s` for strings. -/
def strHas (pat s : String) : Bool := chHas pat.data s.data

/-- Python `str.lower()` (ASCII), on the character data of the string.
Kernel-computable, unlike `String.toLower`. -/
def pyLower (s : String) : String := String.mk (s.data.map Char.toLower)

/-- Case-insensitive literal match: consume `p` (up to ASCII case) from the
front of `l`, returning the remainder. -/
def matchCI : List Char → List Char → Option (List Char)
  | [], l => some l
  | _ :: _, [] => Option.none
  | p :: ps, c :: cs => if p.toLower == c.toLower then matchCI ps cs else Option.none

/-- One step of `re.sub` semantics: `f` tries to match at the current
position, returning `(consumed, emitted)`; on failure the scanner copies one
character and advances.  `fuel` bounds the recursion; callers pass the list
length, which always suffices because every step consumes at least one
character. -/
def reSub (f : List Char → Option (Nat × List Char)) : Nat → List Char → List Char
  | _, [] => []
  | 0, l => l
  | fuel + 1, c :: cs =>
    match f (c :: cs) with
    | some (n, out) => out ++ reSub f fuel ((c :: cs).drop n)
    | Option.none => c :: reSub f fuel cs

/-- Consumed length of a match of `utm_[^=&]+=[^&]+` (the part after the
`[?&]` delimiter of the first tracking regex in `canonical_url`). -/
def utmConsume (l : List Char) : Option Nat :=
  match matchCI ['u', 't', 'm', '_'] l with
  | Option.none => Option.none
  | some r1 =>
    let name := r1.takeWhile (fun c => !(c == '=' || c == '&'))
    if name.length == 0 then Option.none
    else
      match r1.drop name.length with
      | '=' :: r3 =>
        let v := r3.takeWhile (fun c => !(c == '&'))
        if v.length == 0 then Option.none else some (4 + name.length + 1 + v.length)
      | _ => Option.none

/-- Consumed length of `alt=[^&]+` for one alternative of the second
tracking regex. -/
def kvConsume (alt : List Char) (l : List Char) : Option Nat :=
  match matchCI alt l with
  | Option.none => Option.none
  | some r2 =>
    match r2 with
    | '=' :: r3 =>
      let v := r3.takeWhile (fun c => !(c == '&'))
      if v.length == 0 then Option.none else some (alt.length + 1 + v.length)
    | _ => Option.none

/-- Ordered alternation, as in the regex
`(fbclid|gclid|mc_cid|mc_eid|oref|guce_referrer|guce_referrer_sig)`. -/
def altConsume (alts : List (List Char)) (l : List Char) : Option Nat :=
  match alts with
  | [] => Option.none
  | a :: rest =>
    match kvConsume a l with
    | some n => some n
    | Option.none => altConsume rest l

/-- The alternatives of the second tracking regex of `canonical_url`. -/
def trackAlts : List (List Char) :=
  ["fbclid".data, "gclid".data, "mc_cid".data, "mc_eid".data, "oref".data,
   "guce_referrer".data, "guce_referrer_sig".data]

/-- Matcher for `([?&])utm_[^=&]+=[^&]+` (replacement `\1`). -/
def tryUtm (l : List Char) : Option (Nat × List Char) :=
  match l with
  | [] => Option.none
  | c :: cs =>
    if c == '?' || c == '&' then
      match utmConsume cs with
      | some n => some (n + 1, [c])
      | Option.none => Option.none
    else Option.none

/-- Matcher for `([?&])(fbclid|...|guce_referrer_sig)=[^&]+` (replacement `\1`). -/
def tryTrack (l : List Char) : Option (Nat × List Char) :=
  match l with
  | [] => Option.none
  | c :: cs =>
    if c == '?' || c == '&' then
      match altConsume trackAlts cs with
      | some n => some (n + 1, [c])
      | Option.none => Option.none
    else Option.none

/-- `re.sub(r"[?&]$", "", l)`: remove a single trailing `?` or `&`. -/
def dropTrailingDelim (l : List Char) : List Char :=
  match l.getLast? with
  | some c => if c == '?' || c == '&' then l.dropLast else l
  | Option.none => l

/-- `canonical_url` from `generate_live.py`: strip `utm_*` parameters, strip
the known tracking parameters, then remove one dangling `?`/`&`. -/
def canonical_url (link : String) : String :=
  if link = "" then link
  else
    String.mk (dropTrailingDelim
      (reSub tryTrack (reSub tryUtm link.data.length link.data).length
        (reSub tryUtm link.data.length link.data)))

example : canonical_url "http://x?utm_a=b&utm_c=d" = "http://x?" := by decide
example : canonical_url "http://x?" = "http://x" := by decide
example : canonical_url "https://e.com/p?fbclid=z" = "https://e.com/p" := by decide
example : ((3 : ℚ) / 10) * (6 / 10) = 18 / 100 := by norm_num

/-! ### Country and theme tagging (`COUNTRY_TAGS`, `THEME_TAGS`, `tag_country`, `tag_theme`) -/

def COUNTRY_TAGS : List (String × List String) := [
  ("Iran", ["iran", "tehran", "isfahan", "qom", "iri", "irgc", "pasdaran"]),
  ("Israël/Palestine", ["israel", "israeli", "idf", "gaza", "rafah", "hamas", "west bank", "cisjord", "jerusalem", "idf"]),
  ("Liban", ["lebanon", "lebanese", "hezbollah", "beirut", "south lebanon", "margaliot"]),
  ("Syrie", ["syria", "syrian", "damascus", "aleppo", "idlib", "daraa", "deir ez-zor"]),
  ("Irak", ["iraq", "iraqi", "baghdad", "erbil", "kurdistan", "pmf", "hashd"]),
  ("Yémen", ["yemen", "houthi", "ansar allah", "sanaa", "hudaydah", "aden"]),
  ("Golfe", ["saudi", "ksa", "riyadh", "emirati", "uae", "abudhabi", "qatar", "doha", "bahrain", "oman", "muscat", "kuwait"]),
  ("Caucase", ["armenia", "armenian", "yerevan", "azerbaijan", "azerbaijani", "baku", "nagorno", "karabakh", "artsakh", "nakhchivan", "zangezur", "georgia", "tbilisi", "abkhazia", "south ossetia", "ossetia"]),
  ("Égypte/Jordanie", ["egypt", "cairo", "sinai", "jordan", "amman", "aqaba"]),
  ("Turquie", ["turkey", "türkiye", "ankara", "istanbul", "pkk", "sdf"]),
  ("Mer Rouge / Maritime", ["red sea", "mer rouge", "bab al-mandeb", "tanker", "suez", "hijack", "ais"])]

def THEME_TAGS : List (String × List String) := [
  ("Nucléaire", ["iaea", "aiea", "jcpoa", "centrifuge", "enrichment", "ir-"]),
  ("Sécurité/Conflit", ["strike", "airstrike", "rocket", "missile", "drone", "uav", "shell", "incursion", "clash"]),
  ("Diplomatie/Sanctions", ["sanction", "designation", "talks", "negotiation", "normalis", "e3", "eu", "ofac", "ofsi", "eeas"]),
  ("Humanitaire", ["ocha", "relief", "displaced", "casualties", "aid", "famine", "hostage", "prisoner exchange"]),
  ("Maritime/Énergie", ["tanker", "pipeline", "opec", "gas field", "lng", "ais", "strait", "shipping"]),
  ("Politique intérieure", ["cabinet", "coalition", "knesset", "election", "parliament", "minister", "dissolution"])]

/-- The first-matching-group loop shared by `tag_country` and `tag_theme`. -/
def tagLoop (table : List (String × List String)) (text : String) (dflt : String) : String :=
  match table with
  | [] => dflt
  | (c, keys) :: rest => if keys.any (fun k => strHas k text) then c else tagLoop rest text dflt

def tag_country (title summary : String) : String :=
  tagLoop COUNTRY_TAGS (pyLower (title ++ " " ++ summary)) "Autres"

def tag_theme (title summary : String) : String :=
  tagLoop THEME_TAGS (pyLower (title ++ " " ++ summary)) "Général"

/-! ### Entity extraction (`extract_entities`) -/

/-- Python regex word character (`\w`), ASCII fragment. -/
def isWordChar (c : Char) : Bool := c.isAlphanum || c == '_'

/-- Does `\b<w>\b` match at the current position (`prev` is the preceding
character, if any)?  Case-insensitive, as in the source (`re.I`). -/
def wbAt (w : List Char) (prev : Option Char) (l : List Char) : Bool :=
  (match prev with
   | Option.none => true
   | some c => !isWordChar c) &&
  (match matchCI w l with
   | Option.none => false
   | some [] => true
   | some (c :: _) => !isWordChar c)

/-- `re.search` of `\b<w>\b` over the text: try every position. -/
def wbSearch (w : List Char) : Option Char → List Char → Bool
  | _, [] => false
  | prev, c :: cs => wbAt w prev (c :: cs) || wbSearch w (some c) cs

def reSearchWord (w : String) (txt : String) : Bool := wbSearch w.data Option.none txt.data

/-- Python `str.strip(set)`: drop characters of `s` from both ends. -/
def stripChars (s : List Char) (cs : List Char) : List Char :=
  ((cs.dropWhile (fun c => s.contains c)).reverse.dropWhile (fun c => s.contains c)).reverse

/-- `p.strip("\\b").upper()` of the source: strip the characters `\` and `b`
from both ends of the pattern string, then uppercase it. -/
def entityLabel (p : String) : String :=
  String.mk ((stripChars ['\\', 'b'] p.data).map Char.toUpper)

/-- The fixed acronym patterns of `extract_entities`: the regex source string
paired with its word alternatives (the regexes are alternations of
`\b<word>\b` literals). -/
def entityPatterns : List (String × List String) := [
  ("\\bIAEA\\b|\\bAIEA\\b", ["IAEA", "AIEA"]),
  ("\\bE3\\b", ["E3"]),
  ("\\bIRGC\\b|\\bPasdaran\\b", ["IRGC", "Pasdaran"]),
  ("\\bHezbollah\\b", ["Hezbollah"]),
  ("\\bHouthi\\b", ["Houthi"]),
  ("\\bOFAC\\b|\\bOFSI\\b|\\bEU\\b", ["OFAC", "OFSI", "EU"]),
  ("\\bIDF\\b", ["IDF"]),
  ("\\bPKK\\b|\\bSDF\\b", ["PKK", "SDF"]),
  ("\\bRSF\\b", ["RSF"])]

/-- Code-point lexicographic comparison of character lists (Python `str <`). -/
def chLt : List Char → List Char → Bool
  | [], [] => false
  | [], _ :: _ => true
  | _ :: _, [] => false
  | a :: as, b :: bs => Nat.blt a.toNat b.toNat || (a == b && chLt as bs)

/-- Python `a < b` on strings (code-point lexicographic). -/
def strLtB (a b : String) : Bool := chLt a.data b.data

/-- Insert into a sorted duplicate-free list of strings. -/
def insSD (a : String) : List String → List String
  | [] => [a]
  | b :: bs => if strLtB a b then a :: b :: bs else if a = b then b :: bs else b :: insSD a bs

/-- `sorted(list(set(l)))` of Python, for strings. -/
def sortDedup (l : List String) : List String := l.foldr insSD []

/-- `extract_entities` from `generate_live.py`: collect the label of every
matching pattern, then sort the distinct labels. -/
def extract_entities (txt : String) : List String :=
  sortDedup ((entityPatterns.filter
    (fun p => p.2.any (fun w => reSearchWord w txt))).map (fun p => entityLabel p.1))

example : tag_country "Iran warns of retaliation" "Tehran officials say..." = "Iran" := by decide
example : tag_country "Local bakery wins award" "" = "Autres" := by decide
example : extract_entities "IAEA report" = ["IAEA\\B|\\BAIEA"] := by decide
example : extract_entities "Hezbollah and the IDF" = ["HEZBOLLAH", "IDF"] := by decide

/-! ### The entry record and timestamps -/

/-- The `published_at` string of an entry, abstracted to its parse status
and — when parseable — its age in hours relative to the run time (negative
for future-dated entries). -/
inductive PubDate
  | absent
  | invalid
  | valid (ageHours : ℚ)
deriving DecidableEq

/-- One pipeline entry (the dict built by `fetch_one_feed` and enriched in
place by `enrich` and `score_items`). -/
structure Entry where
  title : String
  url : String
  summary : String
  published_at : PubDate
  byline : String
  source : String
  source_url : String
  language_hint : String
  lang : String
  country_guess : String
  theme : String
  entities : List String
  score : ℚ
deriving DecidableEq

/-- A neutral entry used to build concrete examples. -/
def baseEntry : Entry :=
  { title := "", url := "", summary := "", published_at := PubDate.absent,
    byline := "", source := "", source_url := "", language_hint := "",
    lang := "en", country_guess := "Autres", theme := "Général",
    entities := [], score := 0 }

/-! ### Python dict primitives (insertion-ordered association lists) -/

/-- `d[k] = v` on an insertion-ordered dict: overwrite in place or append. -/
def dictSet {α : Type} : List (String × α) → String → α → List (String × α)
  | [], k, v => [(k, v)]
  | (k', v') :: rest, k, v =>
    if k' = k then (k', v) :: rest else (k', v') :: dictSet rest k v

/-- `d.get(k)` on a dict (keys are unique by construction). -/
def dictGet? {α : Type} : List (String × α) → String → Option α
  | [], _ => Option.none
  | (k', v') :: rest, k => if k' = k then some v' else dictGet? rest k

/-- A dict built from a list of key/value pairs, later pairs overwriting
earlier ones (Python dict-comprehension semantics). -/
def pyDict {α : Type} (l : List (String × α)) : List (String × α) :=
  l.foldl (fun d kv => dictSet d kv.1 kv.2) []

/-! ### Scoring (`domain_from_source_url`, `recency_score`, `keyword_boost`,
`rule_boosts`, `score_items`) -/

/-- Try the regex `https?://([^/]+)/?` at the current position; on success
return the first capture group. -/
def tryDomain (l : List Char) : Option (List Char) :=
  match (if chStarts "https://".data l then some (l.drop 8)
         else if chStarts "http://".data l then some (l.drop 7)
         else Option.none) with
  | Option.none => Option.none
  | some rest =>
    let d := rest.takeWhile (fun c => !(c == '/'))
    if d.isEmpty then Option.none else some d

/-- `re.search(r"https?://([^/]+)/?", l)`: scan every position. -/
def findDomain : List Char → Option (List Char)
  | [] => Option.none
  | c :: cs =>
    match tryDomain (c :: cs) with
    | some d => some d
    | Option.none => findDomain cs

/-- Matcher deleting one occurrence of `www.` (for `str.replace`). -/
def tryWWW (l : List Char) : Option (Nat × List Char) :=
  if chStarts "www.".data l then some (4, ([] : List Char)) else Option.none

/-- `domain_from_source_url` from `generate_live.py`: first
`https?://([^/]+)` group lower-cased (or the raw input when the regex does
not match), with every occurrence of `www.` removed. -/
def domain_from_source_url (src_url : String) : String :=
  let base :=
    match findDomain src_url.data with
    | some d => d.map Char.toLower
    | Option.none => src_url.data
  String.mk (reSub tryWWW base.length base)

/-- `recency_score` from `generate_live.py`.  `hp` abstracts
`fun x => pow 0.5 x`; an empty or unparseable `published_at` yields the
fixed constant `0.3`, and negative ages clamp to zero. -/
def recency_score (hp : ℚ → ℚ) (published_at : PubDate) (half_life_h : ℚ) : ℚ :=
  match published_at with
  | PubDate.absent => 3 / 10
  | PubDate.invalid => 3 / 10
  | PubDate.valid age => hp (max 0 age / max (1 / 1000000) half_life_h)

/-- One escaped character of `re.escape` (Python ≥ 3.7 escapes exactly the
characters that can be special in a regex). -/
def reEscapeChar (c : Char) : List Char :=
  if "()[]\x7b\x7d?*+-|^$\\.&~# \t\n\r\x0b\x0c".data.contains c then ['\\', c] else [c]

/-- `re.escape`. -/
def reEscape (s : String) : String := String.mk ((s.data.map reEscapeChar).flatten)

/-- `.replace("\\*", ".*")` applied to an escaped term. -/
def replStar : List Char → List Char
  | [] => []
  | '\\' :: '*' :: rest => '.' :: '*' :: replStar rest
  | c :: rest => c :: replStar rest

/-- The wildcard pattern `re.compile(re.escape(term).replace("\\*", ".*"))`
of `keyword_boost`. -/
def wildcardToRegex (term : String) : String := String.mk (replStar (reEscape term).data)

/-- One iteration of the `keyword_boost` loop.  `rs pat text` abstracts
`re.search(pat, text, re.I)` for configured boost terms. -/
def boostStep (rs : String → String → Bool) (text : String) (sc : ℚ) (term : String) : ℚ :=
  if strHas " OR " term then
    if (term.splitOn " OR ").any (fun t => rs t.trim text) then sc + 3 / 10 else sc
  else if strHas "*" term then
    if rs (wildcardToRegex term) text then sc + 3 / 10 else sc
  else
    if rs term text then sc + 3 / 10 else sc

/-- `keyword_boost` from `generate_live.py`: `0.3` per matching term, capped
at `1.5`; `0.0` for an empty boost list. -/
def keyword_boost (rs : String → String → Bool) (text : String) (boosts : List String) : ℚ :=
  if boosts.isEmpty then 0
  else min (boosts.foldl (boostStep rs text) 0) (3 / 2)

/-- `rule_boosts` from `generate_live.py`: fixed editorial bonuses. -/
def rule_boosts (text : String) (country : String) (theme : String) : ℚ :=
  (if theme = "Nucléaire" ∨ theme = "Diplomatie/Sanctions" then 3 / 10 else 0) +
  (if country = "Iran" ∨ country = "Israël/Palestine" ∨ country = "Liban" ∨
      country = "Yémen" then 1 / 5 else 0)

/-- The scoring configuration (`cfg['scoring']`, `source_priorities`,
`boost_keywords`). -/
structure ScoreCfg where
  freshness_half_life_hours : ℚ
  source_priorities : List (String × ℚ)
  boost_keywords : List String

/-- The priority dict `{k.lower(): float(v) for k, v in ...}`. -/
def lowerPriorities (cfg : ScoreCfg) : List (String × ℚ) :=
  pyDict (cfg.source_priorities.map (fun p => (pyLower p.1, p.2)))

/-- The body of the `score_items` loop for one entry. -/
def score_one (hp : ℚ → ℚ) (rs : String → String → Bool) (cfg : ScoreCfg)
    (priorities : List (String × ℚ)) (it : Entry) : Entry :=
  let text := it.title ++ " " ++ it.summary
  let r := recency_score hp it.published_at cfg.freshness_half_life_hours
  let dom := domain_from_source_url it.source_url
  let base := (dictGet? priorities dom).getD (6 / 10)
  let kwb := keyword_boost rs text cfg.boost_keywords
  let rb := rule_boosts text it.country_guess it.theme
  { it with score := max 0 (r * base) + kwb + rb }

/-- `score_items` from `generate_live.py` (as a map producing the updated
entries rather than an in-place mutation). -/
def score_items (hp : ℚ → ℚ) (rs : String → String → Bool) (cfg : ScoreCfg)
    (items : List Entry) : List Entry :=
  items.map (score_one hp rs cfg (lowerPriorities cfg))

example : domain_from_source_url "https://www.example.com/feed" = "example.com" := by decide
example : domain_from_source_url "not a url" = "not a url" := by decide

/-! ### Deduplication (`dedupe`) -/

/-- The window filter of `dedupe`: an entry is skipped iff its
`published_at` is non-empty, parses, and its age exceeds `window_h`
(a parse failure leaves `ts_ok` true; an empty `published_at` is always
kept). -/
def windowKeep (window_h : ℚ) (it : Entry) : Bool :=
  match it.published_at with
  | PubDate.absent => true
  | PubDate.invalid => true
  | PubDate.valid age => decide (age ≤ window_h)

/-- `re.sub(r"\W+", "", title).lower()`: keep only word characters, then
lower-case. -/
def normTitleKey (t : String) : String :=
  String.mk ((t.data.filter (fun c => isWordChar c)).map Char.toLower)

/-- The composite deduplication key (the md5 of the joined parts in the
source; modelled by the list of parts, md5 treated as injective). -/
def dedupeKey (mode : String) (it : Entry) : List String :=
  (if strHas "title" mode then [normTitleKey it.title] else []) ++
  (if strHas "url" mode then [pyLower (canonical_url it.url)] else []) ++
  (if strHas "canonical" mode then [domain_from_source_url it.source_url] else [])

/-- `uniq[k] = it` for `k = dedupeKey mode it`: replace the same-key
incumbent when the new score is strictly greater, else keep it; append when
the key is new.  Keys are not stored: every stored key equals the key of its
entry, so the dict is represented by its value list in insertion order. -/
def updBest (mode : String) (it : Entry) : List Entry → List Entry
  | [] => [it]
  | e :: rest =>
    if dedupeKey mode e = dedupeKey mode it then
      (if it.score > e.score then it else e) :: rest
    else e :: updBest mode it rest

/-- The key-collapsing pass of `dedupe` over an already window-filtered
list. -/
def collapseBest (mode : String) (l : List Entry) : List Entry :=
  l.foldl (fun acc it => updBest mode it acc) []

/-- `dedupe` from `generate_live.py`: one pass applying the window filter
and the keep-highest-per-key dict update; the result is the dict's value
list. -/
def dedupe (items : List Entry) (mode : String) (window_h : ℚ) : List Entry :=
  items.foldl
    (fun acc it => if windowKeep window_h it then updBest mode it acc else acc) []

/-! ### Diversity compression (`compress_diverse`, `compress`) -/

/-- `sorted(items, key=lambda x: x['score'], reverse=True)` (a stable
descending sort by score). -/
def sortDescScore (items : List Entry) : List Entry :=
  List.insertionSort (fun a b => b.score ≤ a.score) items

/-- `(it.get(ax) or '')` for the string fields of an entry; unknown keys
give `''` (so do the non-string fields `published_at`/`entities`/`score`,
which are not legal diversity axes: Python would raise on `.lower()` of a
non-empty non-string value). -/
def axisVal (it : Entry) (ax : String) : String :=
  if ax = "title" then it.title
  else if ax = "url" then it.url
  else if ax = "summary" then it.summary
  else if ax = "byline" then it.byline
  else if ax = "source" then it.source
  else if ax = "source_url" then it.source_url
  else if ax = "language_hint" then it.language_hint
  else if ax = "lang" then it.lang
  else if ax = "country_guess" then it.country_guess
  else if ax = "theme" then it.theme
  else ""

/-- The axis tuple `tuple((it.get(ax) or '').lower() for ax in axes)`. -/
def diversityKey (axes : List String) (it : Entry) : List String :=
  axes.map (fun ax => pyLower (axisVal it ax))

/-- `seen.get(key, 0)`. -/
def getCount (k : List String) : List (List String × ℕ) → ℕ
  | [] => 0
  | (k', n) :: rest => if k' = k then n else getCount k rest

/-- `seen[key] = cnt + 1`. -/
def bumpCount (k : List String) : List (List String × ℕ) → List (List String × ℕ)
  | [] => [(k, 1)]
  | (k', n) :: rest => if k' = k then (k', n + 1) :: rest else (k', n) :: bumpCount k rest

/-- The greedy scan of `compress_diverse`: admit an entry when its axis
tuple is new or fewer than `target // 2` entries are chosen; stop as soon as
`target` entries are chosen (the break is checked after each append, as in
the source). -/
def diversityScan (target : ℕ) (axes : List String) :
    List Entry → List Entry → List (List String × ℕ) → List Entry
  | [], chosen, _ => chosen
  | it :: rest, chosen, seen =>
    let key := diversityKey axes it
    let cnt := getCount key seen
    if cnt = 0 ∨ chosen.length < target / 2 then
      let chosen' := chosen ++ [it]
      if target ≤ chosen'.length then chosen'
      else diversityScan target axes rest chosen' (bumpCount key seen)
    else diversityScan target axes rest chosen seen

/-- `compress_diverse` from `generate_live.py`: greedy diversity scan over
the score-sorted list, topped up from the not-yet-chosen remainder when the
scan falls short of `target`. -/
def compress_diverse (items : List Entry) (target : ℕ) (axes : List String) : List Entry :=
  if items.length ≤ target then items
  else
    if (diversityScan target axes (sortDescScore items) [] []).length < target then
      diversityScan target axes (sortDescScore items) [] []
        ++ ((sortDescScore items).filter
              (fun it => decide (it ∉ diversityScan target axes (sortDescScore items) [] []))).take
            (target - (diversityScan target axes (sortDescScore items) [] []).length)
    else diversityScan target axes (sortDescScore items) [] []

/-- `compress` from `generate_live.py`: dispatch on the configured method,
falling back to plain top-k by score. -/
def compress (items : List Entry) (target : ℕ) (method : String) (axes : List String) :
    List Entry :=
  if method = "salience+diversity" then compress_diverse items target axes
  else (sortDescScore items).take target

/-- Step 6 of `collect`: `sorted(items, key=score, reverse=True)[:overall_max]`. -/
def capOverall (items : List Entry) (overall_max : ℕ) : List Entry :=
  (sortDescScore items).take overall_max

/-- Steps 5–7 of `collect`: dedupe, cap to `overall_max`, compress. -/
def collectTail (items : List Entry) (mode : String) (window_h : ℚ)
    (overall_max target : ℕ) (method : String) (axes : List String) : List Entry :=
  compress (capOverall (dedupe items mode window_h) overall_max) target method axes

/-! ### Projection (`project`) -/

/-- A Python value stored in an entry dict. -/
inductive PyVal
  | null
  | str (s : String)
  | num (q : ℚ)
  | strs (l : List String)
deriving DecidableEq

/-- Round half to even (Python `round` on exact values). -/
def roundHalfEven (x : ℚ) : ℤ :=
  let f := ⌊x⌋
  let r := x - f
  if r < 1 / 2 then f
  else if 1 / 2 < r then f + 1
  else if f % 2 = 0 then f else f + 1

/-- `round(x, 4)` (idealized decimal rounding of the exact value). -/
def round4 (x : ℚ) : ℚ := (roundHalfEven (x * 10000) : ℚ) / 10000

/-- The field cascade of the `project` loop body: each recognized name looks
up that same name; `entities` defaults to the empty list; unrecognized names
fall through to a plain `it.get(f)`. -/
def projField (it : List (String × PyVal)) (f : String) : PyVal :=
  if f = "url" then (dictGet? it "url").getD PyVal.null
  else if f = "title" then (dictGet? it "title").getD PyVal.null
  else if f = "summary" then (dictGet? it "summary").getD PyVal.null
  else if f = "source" then (dictGet? it "source").getD PyVal.null
  else if f = "published_at" then (dictGet? it "published_at").getD PyVal.null
  else if f = "byline" then (dictGet? it "byline").getD PyVal.null
  else if f = "country_guess" then (dictGet? it "country_guess").getD PyVal.null
  else if f = "theme" then (dictGet? it "theme").getD PyVal.null
  else if f = "entities" then (dictGet? it "entities").getD (PyVal.strs [])
  else (dictGet? it f).getD PyVal.null

/-- `float(it.get('score', 0.0))`: absent defaults to `0.0`; a stored
number converts to itself; anything else is a conversion failure (pipeline
entries always store a float there). -/
def floatOfVal : Option PyVal → Option ℚ
  | Option.none => some 0
  | some (PyVal.num q) => some q
  | some _ => Option.none

/-- The `project` loop body for one entry dict: the requested fields in
order, then the bookkeeping keys `score` (rounded to 4 digits) and
`source_url`. -/
def project_row (fields : List String) (it : List (String × PyVal)) :
    Option (List (String × PyVal)) :=
  match floatOfVal (dictGet? it "score") with
  | Option.none => Option.none
  | some q =>
    some (dictSet (dictSet (fields.foldl (fun row f => dictSet row f (projField it f)) [])
      "score" (PyVal.num (round4 q))) "source_url"
      ((dictGet? it "source_url").getD PyVal.null))

/-- `project` from `generate_live.py` over a list of entry dicts. -/
def project (fields : List String) (items : List (List (String × PyVal))) :
    Option (List (List (String × PyVal))) :=
  items.mapM (project_row fields)

/-- The keys of a dict, in insertion order. -/
def dictKeys {α : Type} (d : List (String × α)) : List String := d.map Prod.fst

/-! ### Feed fetching (`norm_text`, `fetch_one_feed`) -/

/-- ASCII whitespace (Python `\s` / `str.strip()` fragment). -/
def isPySpace (c : Char) : Bool :=
  c == ' ' || c == '\t' || c == '\n' || c == '\r' || c == '\x0b' || c == '\x0c'

/-- Python `str.strip()`. -/
def pyStripWs (s : List Char) : List Char :=
  ((s.dropWhile isPySpace).reverse.dropWhile isPySpace).reverse

/-- Matcher for one `<[^>]+>` tag (replacement a single space). -/
def tryTag (l : List Char) : Option (Nat × List Char) :=
  match l with
  | '<' :: cs =>
    let b := cs.takeWhile (fun c => !(c == '>'))
    if b.isEmpty then Option.none
    else
      match cs.drop b.length with
      | '>' :: _ => some (b.length + 2, [' '])
      | _ => Option.none
  | _ => Option.none

/-- Matcher for one `\s+` run (replacement a single space). -/
def trySpaces (l : List Char) : Option (Nat × List Char) :=
  match l with
  | [] => Option.none
  | c :: _ =>
    if isPySpace c then some ((l.takeWhile isPySpace).length, [' ']) else Option.none

/-- `norm_text` from `generate_live.py`: strip, HTML-unescape (`unesc` is
the abstract `html.unescape`), remove `<[^>]+>` tags, collapse whitespace
runs to single spaces. -/
def norm_text (unesc : String → String) (s : String) : String :=
  let s1 := unesc (String.mk (pyStripWs s.data))
  let s2 := reSub tryTag s1.data.length s1.data
  String.mk (reSub trySpaces s2.length s2)

/-- One raw feedparser entry: the attributes read by `fetch_one_feed`
(missing attributes are the empty string, as in the source's
`getattr(e, ..., '') or ...` chains); `parsedDate` abstracts
`parse_date(e)` followed by `.isoformat()`. -/
structure RawItem where
  title : String
  link : String
  summary : String
  description : String
  author : String
  creator : String
  parsedDate : Option String
deriving DecidableEq

/-- A parsed feed: the entry list and the `d.feed` attributes used by
`fetch_one_feed` (absent values modelled as the empty string, which is how
the source's `or` chains treat them). -/
structure RawFeed where
  entries : List RawItem
  feedLink : String
  feedTitle : String
  language : String
  dc_language : String
deriving DecidableEq

/-- An entry dict as built by `fetch_one_feed` (before enrichment). -/
structure FetchedItem where
  title : String
  url : String
  summary : String
  published_at : String
  byline : String
  source : String
  source_url : String
  language_hint : String
deriving DecidableEq

/-- `re.sub(r'^https?://(www\.)?', '', source).split('/')[0]`: the
source-title fallback of `fetch_one_feed`. -/
def sourceTitleFallback (s : String) : String :=
  let l := s.data
  let scheme := chStarts "https://".data l || chStarts "http://".data l
  let l1 := if chStarts "https://".data l then l.drop 8
            else if chStarts "http://".data l then l.drop 7 else l
  let l2 := if scheme && chStarts "www.".data l1 then l1.drop 4 else l1
  String.mk (l2.takeWhile (fun c => !(c == '/')))

/-- The entry dict built for one raw item by `fetch_one_feed`. -/
def mkFetched (unesc : String → String) (d : RawFeed) (url : String) (e : RawItem) :
    FetchedItem :=
  let source := if d.feedLink = "" then url else d.feedLink
  { title := norm_text unesc e.title,
    url := canonical_url e.link,
    summary := norm_text unesc (if e.summary = "" then e.description else e.summary),
    published_at := e.parsedDate.getD "",
    byline := norm_text unesc (if e.author = "" then e.creator else e.author),
    source := if norm_text unesc d.feedTitle = "" then sourceTitleFallback source
              else norm_text unesc d.feedTitle,
    source_url := source,
    language_hint := if d.language = "" then d.dc_language else d.language }

/-- `fetch_one_feed` from `generate_live.py`.  `parsed` is the outcome of
`feedparser.parse(url)`: an exception is caught, logged and turned into an
empty item list; items lacking a non-empty normalized title or link are
skipped. -/
def fetch_one_feed (unesc : String → String) (parsed : Except String RawFeed)
    (url : String) (per_feed_max : ℕ) : String × List FetchedItem :=
  match parsed with
  | Except.error _ => (url, [])
  | Except.ok d =>
    (url, (d.entries.take per_feed_max).filterMap (fun e =>
      if norm_text unesc e.title = "" ∨ canonical_url e.link = "" then Option.none
      else some (mkFetched unesc d url e)))

/-! ### Concrete example data -/

/-- Scoring configuration with the default half-life and no priorities or
boosts. -/
def exScoreCfg : ScoreCfg := { freshness_half_life_hours := 18, source_priorities := [], boost_keywords := [] }

/-- Two entries with the same canonical URL and different scores. -/
def exUrlLow : Entry := { baseEntry with title := "First report", url := "https://e.com/story?utm_s=x", score := 1 }

def exUrlHigh : Entry := { baseEntry with title := "Second report", url := "https://e.com/story", score := 7 }

/-- Three entries: two sharing a normalized title (scores 5 and 2), one
distinct. -/
def exT5 : Entry := { baseEntry with title := "Big News Today!", url := "https://a.com/1", score := 5 }

def exT2 : Entry := { baseEntry with title := "big news today", url := "https://b.com/2", score := 2 }

def exTD : Entry := { baseEntry with title := "Other story", url := "https://c.com/3", score := 2 }

/-- An entry used to exhibit the compressor edge cases. -/
def cEnt : Entry := { baseEntry with title := "dup", score := 3 }

/-- Three pairwise-distinct entries with distinct scores. -/
def p1 : Entry := { baseEntry with title := "alpha", score := 9 }

def p2 : Entry := { baseEntry with title := "beta", score := 5 }

def p3 : Entry := { baseEntry with title := "gamma", score := 1 }

/-- An entry dict as seen by the projector. -/
def projExDict : List (String × PyVal) :=
  [("title", PyVal.str "T"), ("url", PyVal.str "U"),
   ("score", PyVal.num 5), ("source_url", PyVal.str "S")]

/-- A raw feed item that survives normalization. -/
def rawGood : RawItem :=
  { title := "Hello <b>World</b>", link := "https://e.com/a?utm_x=1", summary := "Sum",
    description := "", author := "Alice", creator := "",
    parsedDate := some "2024-01-01T00:00:00+00:00" }

/-- A raw feed item whose title normalizes to the empty string. -/
def rawBad : RawItem :=
  { title := "   ", link := "https://e.com/b", summary := "", description := "",
    author := "", creator := "", parsedDate := Option.none }

/-- A parsed feed holding one good and one bad item. -/
def exFeed : RawFeed :=
  { entries := [rawGood, rawBad], feedLink := "https://e.com",
    feedTitle := "My Feed", language := "en", dc_language := "" }

/-! ## Theorems -/

/-! ### Helper lemmas for the scorer -/

lemma boostStep_le (rs : String → String → Bool) (text : String) (sc : ℚ) (term : String) :
    sc ≤ boostStep rs text sc term := by
  unfold boostStep
  split_ifs <;> linarith

lemma foldl_boostStep_le (rs : String → String → Bool) (text : String) :
    ∀ (boosts : List String) (sc : ℚ), sc ≤ boosts.foldl (boostStep rs text) sc
  | [], sc => le_refl sc
  | t :: ts, sc => le_trans (boostStep_le rs text sc t) (foldl_boostStep_le rs text ts _)

lemma keyword_boost_nonneg (rs : String → String → Bool) (text : String)
    (boosts : List String) : 0 ≤ keyword_boost rs text boosts := by
  unfold keyword_boost
  split_ifs
  · exact le_refl 0
  · exact le_min (foldl_boostStep_le rs text boosts 0) (by norm_num)

lemma rule_boosts_nonneg (text country theme : String) :
    0 ≤ rule_boosts text country theme := by
  unfold rule_boosts
  split_ifs <;> norm_num

lemma score_one_score (hp : ℚ → ℚ) (rs : String → String → Bool) (cfg : ScoreCfg)
    (ps : List (String × ℚ)) (it : Entry) :
    (score_one hp rs cfg ps it).score
      = max 0 (recency_score hp it.published_at cfg.freshness_half_life_hours
          * ((dictGet? ps (domain_from_source_url it.source_url)).getD (6 / 10)))
        + keyword_boost rs (it.title ++ " " ++ it.summary) cfg.boost_keywords
        + rule_boosts (it.title ++ " " ++ it.summary) it.country_guess it.theme := rfl

/-- C1: every scored entry satisfies
`score = max(0, recency * sourcePriority) + keywordBoost + ruleBoost`; the
score is finite (it is a rational by construction) and nonnegative; and for
an entry with no timestamp whose source domain is absent from the priority
table the base term is `0.3 * 0.6 = 0.18`, to which the boosts are added. -/
theorem C1_score_formula_nonneg_default :
    (∀ (hp : ℚ → ℚ) (rs : String → String → Bool) (cfg : ScoreCfg)
       (items : List Entry) (e : Entry), e ∈ score_items hp rs cfg items → 0 ≤ e.score)
    ∧ (∀ (hp : ℚ → ℚ) (rs : String → String → Bool) (cfg : ScoreCfg)
         (ps : List (String × ℚ)) (it : Entry),
        (score_one hp rs cfg ps it).score
          = max 0 (recency_score hp it.published_at cfg.freshness_half_life_hours
              * ((dictGet? ps (domain_from_source_url it.source_url)).getD (6 / 10)))
            + keyword_boost rs (it.title ++ " " ++ it.summary) cfg.boost_keywords
            + rule_boosts (it.title ++ " " ++ it.summary) it.country_guess it.theme)
    ∧ (∀ (hp : ℚ → ℚ) (rs : String → String → Bool) (cfg : ScoreCfg)
         (ps : List (String × ℚ)) (it : Entry),
        it.published_at = PubDate.absent →
        dictGet? ps (domain_from_source_url it.source_url) = Option.none →
        (score_one hp rs cfg ps it).score
          = 18 / 100 + keyword_boost rs (it.title ++ " " ++ it.summary) cfg.boost_keywords
            + rule_boosts (it.title ++ " " ++ it.summary) it.country_guess it.theme) := by
  refine ⟨?_, ?_, ?_⟩
  · intro hp rs cfg items e he
    obtain ⟨it, _, rfl⟩ := List.mem_map.mp he
    rw [score_one_score]
    have h1 := keyword_boost_nonneg rs (it.title ++ " " ++ it.summary) cfg.boost_keywords
    have h2 := rule_boosts_nonneg (it.title ++ " " ++ it.summary) it.country_guess it.theme
    have h3 : (0 : ℚ) ≤ max 0 (recency_score hp it.published_at cfg.freshness_half_life_hours
        * ((dictGet? (lowerPriorities cfg) (domain_from_source_url it.source_url)).getD (6 / 10))) :=
      le_max_left 0 _
    linarith
  · intro hp rs cfg ps it
    exact score_one_score hp rs cfg ps it
  · intro hp rs cfg ps it h1 h2
    rw [score_one_score, h1, h2]
    simp only [recency_score, Option.getD_none]
    norm_num

/-- Witness for C1 at a concrete neutral entry: no timestamp, no priority
entry, empty boosts. -/
theorem C1_witness :
    baseEntry.published_at = PubDate.absent
    ∧ dictGet? ([] : List (String × ℚ)) (domain_from_source_url baseEntry.source_url)
        = Option.none
    ∧ (score_one (fun _ => 0) (fun _ _ => false) exScoreCfg [] baseEntry).score
        = 18 / 100
          + keyword_boost (fun _ _ => false) (baseEntry.title ++ " " ++ baseEntry.summary)
              exScoreCfg.boost_keywords
          + rule_boosts (baseEntry.title ++ " " ++ baseEntry.summary) baseEntry.country_guess
              baseEntry.theme :=
  ⟨rfl, rfl,
    C1_score_formula_nonneg_default.2.2 (fun _ => 0) (fun _ _ => false) exScoreCfg [] baseEntry
      rfl rfl⟩

/-! ### Helper lemmas for deduplication -/

lemma foldl_if_filter {β : Type} (p : Entry → Bool) (g : β → Entry → β) :
    ∀ (l : List Entry) (acc : β),
      l.foldl (fun a x => if p x then g a x else a) acc = (l.filter p).foldl g acc := by
  intro l
  induction l with
  | nil => intro acc; rfl
  | cons x xs ih => intro acc; by_cases h : p x <;> simp [List.filter_cons, h, ih]

lemma dedupe_eq_collapse (items : List Entry) (mode : String) (w : ℚ) :
    dedupe items mode w = collapseBest mode (items.filter (windowKeep w)) := by
  unfold dedupe collapseBest
  rw [foldl_if_filter]

lemma collapseBest_append_one (mode : String) (l : List Entry) (a : Entry) :
    collapseBest mode (l ++ [a]) = updBest mode a (collapseBest mode l) := by
  unfold collapseBest
  rw [List.foldl_append]
  rfl

lemma exists_first_split {α : Type} (P : α → Prop) :
    ∀ (l : List α), (∃ b ∈ l, P b) →
      ∃ c1 b c2, l = c1 ++ b :: c2 ∧ P b ∧ ∀ x ∈ c1, ¬ P x := by
  intro l
  induction l with
  | nil => rintro ⟨b, h, _⟩; cases h
  | cons a as ih =>
    intro h
    by_cases ha : P a
    · exact ⟨[], a, as, rfl, ha, by simp⟩
    · obtain ⟨b, hb, hPb⟩ := h
      rcases List.mem_cons.mp hb with rfl | hb'
      · exact absurd hPb ha
      · obtain ⟨c1, b', c2, heq, hPb', hc1⟩ := ih ⟨b, hb', hPb⟩
        refine ⟨a :: c1, b', c2, by rw [heq]; rfl, hPb', ?_⟩
        intro x hx
        rcases List.mem_cons.mp hx with rfl | hx'
        · exact ha
        · exact hc1 x hx'

lemma updBest_of_no_key (mode : String) (it : Entry) :
    ∀ (acc : List Entry), (∀ b ∈ acc, dedupeKey mode b ≠ dedupeKey mode it) →
      updBest mode it acc = acc ++ [it] := by
  intro acc
  induction acc with
  | nil => intro _; rfl
  | cons e rest ih =>
    intro h
    have he : dedupeKey mode e ≠ dedupeKey mode it := h e (List.mem_cons_self e rest)
    simp only [updBest, if_neg he, List.cons_append]
    rw [ih (fun b hb => h b (List.mem_cons_of_mem e hb))]

lemma updBest_of_key (mode : String) (it : Entry) :
    ∀ (c1 : List Entry) (c2 : List Entry) (b : Entry),
      dedupeKey mode b = dedupeKey mode it →
      (∀ x ∈ c1, ¬ (dedupeKey mode x = dedupeKey mode it)) →
      updBest mode it (c1 ++ b :: c2)
        = c1 ++ (if it.score > b.score then it else b) :: c2 := by
  intro c1
  induction c1 with
  | nil =>
    intro c2 b hb _
    simp only [List.nil_append, updBest, if_pos hb]
  | cons x c1' ih =>
    intro c2 b hb hc
    have hx : ¬ (dedupeKey mode x = dedupeKey mode it) := hc x (List.mem_cons_self _ _)
    simp only [List.cons_append, updBest, if_neg hx, List.append_eq]
    rw [ih c2 b hb (fun y hy => hc y (List.mem_cons_of_mem _ hy))]

lemma collapseBest_pairwise (mode : String) :
    ∀ (l : List Entry),
      (collapseBest mode l).Pairwise (fun a b => dedupeKey mode a ≠ dedupeKey mode b) := by
  intro l
  induction l using List.reverseRecOn with
  | nil => simp [collapseBest]
  | append_singleton l a ih =>
    rw [collapseBest_append_one]
    by_cases hex : ∃ b ∈ collapseBest mode l, dedupeKey mode b = dedupeKey mode a
    · obtain ⟨c1, b, c2, hsplit, hkb, hc1⟩ := exists_first_split _ _ hex
      rw [hsplit] at ih
      rw [hsplit, updBest_of_key mode a c1 c2 b hkb hc1]
      have hkm : dedupeKey mode (if a.score > b.score then a else b) = dedupeKey mode b := by
        split_ifs with h
        · rw [hkb]
        · rfl
      rw [List.pairwise_append] at ih ⊢
      obtain ⟨h1, h2, h3⟩ := ih
      rw [List.pairwise_cons] at h2 ⊢
      obtain ⟨h2a, h2b⟩ := h2
      refine ⟨h1, ⟨?_, h2b⟩, ?_⟩
      · intro y hy
        rw [hkm]
        exact h2a y hy
      · intro x hx y hy
        rcases List.mem_cons.mp hy with rfl | hy'
        · rw [hkm]
          exact h3 x hx b (List.mem_cons_self _ _)
        · exact h3 x hx y (List.mem_cons_of_mem _ hy')
    · push_neg at hex
      rw [updBest_of_no_key mode a _ hex, List.pairwise_append]
      refine ⟨ih, List.pairwise_singleton _ _, ?_⟩
      intro x hx y hy
      rcases List.mem_singleton.mp hy with rfl
      exact hex x hx

lemma collapseBest_covers (mode : String) :
    ∀ (l : List Entry), ∀ b ∈ l,
      ∃ e, e ∈ collapseBest mode l ∧ dedupeKey mode e = dedupeKey mode b := by
  intro l
  induction l using List.reverseRecOn with
  | nil => intro b hb; simp at hb
  | append_singleton l a ih =>
    intro b hb
    rw [collapseBest_append_one]
    by_cases hex : ∃ x ∈ collapseBest mode l, dedupeKey mode x = dedupeKey mode a
    · obtain ⟨c1, x0, c2, hsplit, hkx, hc1⟩ := exists_first_split _ _ hex
      have hkm : dedupeKey mode (if a.score > x0.score then a else x0)
          = dedupeKey mode x0 := by
        split_ifs with h
        · rw [hkx]
        · rfl
      rw [hsplit, updBest_of_key mode a c1 c2 x0 hkx hc1]
      rcases List.mem_append.mp hb with hbl | hba
      · obtain ⟨e, he, hke⟩ := ih b hbl
        rw [hsplit] at he
        rcases List.mem_append.mp he with h1 | h1
        · exact ⟨e, List.mem_append_left _ h1, hke⟩
        · rcases List.mem_cons.mp h1 with rfl | h2
          · refine ⟨(if a.score > e.score then a else e),
              List.mem_append_right _ (List.mem_cons_self _ _), ?_⟩
            rw [hkm]
            exact hke
          · exact ⟨e, List.mem_append_right _ (List.mem_cons_of_mem _ h2), hke⟩
      · rcases List.mem_singleton.mp hba with rfl
        refine ⟨(if b.score > x0.score then b else x0),
          List.mem_append_right _ (List.mem_cons_self _ _), ?_⟩
        rw [hkm]
        exact hkx
    · push_neg at hex
      rw [updBest_of_no_key mode a _ hex]
      rcases List.mem_append.mp hb with hbl | hba
      · obtain ⟨e, he, hke⟩ := ih b hbl
        exact ⟨e, List.mem_append_left _ he, hke⟩
      · rcases List.mem_singleton.mp hba with rfl
        exact ⟨b, List.mem_append_right _ (List.mem_singleton_self b), rfl⟩

lemma collapseBest_spec (mode : String) :
    ∀ (l : List Entry), ∀ e ∈ collapseBest mode l,
      ∃ l1 l2, l = l1 ++ e :: l2
        ∧ (∀ x ∈ l1, dedupeKey mode x = dedupeKey mode e → x.score < e.score)
        ∧ (∀ x ∈ l2, dedupeKey mode x = dedupeKey mode e → x.score ≤ e.score) := by
  intro l
  induction l using List.reverseRecOn with
  | nil => intro e he; simp [collapseBest] at he
  | append_singleton l a ih =>
    intro e he
    rw [collapseBest_append_one] at he
    by_cases hex : ∃ x ∈ collapseBest mode l, dedupeKey mode x = dedupeKey mode a
    · obtain ⟨c1, b, c2, hsplit, hkb, hc1⟩ := exists_first_split _ _ hex
      have hb_mem : b ∈ collapseBest mode l := by
        rw [hsplit]; exact List.mem_append_right _ (List.mem_cons_self _ _)
      have hpw := collapseBest_pairwise mode l
      rw [hsplit, updBest_of_key mode a c1 c2 b hkb hc1] at he
      rw [hsplit, List.pairwise_append] at hpw
      obtain ⟨hpw1, hpw2, hpw3⟩ := hpw
      rw [List.pairwise_cons] at hpw2
      obtain ⟨hbc2, _⟩ := hpw2
      rcases List.mem_append.mp he with h1 | h1
      · -- e survives inside c1: it keeps its old decomposition; the new
        -- element a has a different key.
        have hel : e ∈ collapseBest mode l := by
          rw [hsplit]; exact List.mem_append_left _ h1
        obtain ⟨l1, l2, hl, hlt, hle⟩ := ih e hel
        refine ⟨l1, l2 ++ [a], by rw [hl]; simp, hlt, ?_⟩
        intro x hx hkx
        rcases List.mem_append.mp hx with h2 | h2
        · exact hle x h2 hkx
        · rcases List.mem_singleton.mp h2 with rfl
          exact absurd hkx.symm (hc1 e h1)
      · rcases List.mem_cons.mp h1 with heq | h2
        · by_cases hsc : a.score > b.score
          · rw [if_pos hsc] at heq
            subst heq
            obtain ⟨m1, m2, hm, hmlt, hmle⟩ := ih b hb_mem
            refine ⟨l, [], by simp, ?_, by simp⟩
            intro x hx hkx
            have hxb : dedupeKey mode x = dedupeKey mode b := hkx.trans hkb.symm
            rw [hm] at hx
            rcases List.mem_append.mp hx with h3 | h3
            · exact lt_trans (hmlt x h3 hxb) hsc
            · rcases List.mem_cons.mp h3 with rfl | h4
              · exact hsc
              · exact lt_of_le_of_lt (hmle x h4 hxb) hsc
          · rw [if_neg hsc] at heq
            subst heq
            obtain ⟨m1, m2, hm, hmlt, hmle⟩ := ih e hb_mem
            refine ⟨m1, m2 ++ [a], by rw [hm]; simp, hmlt, ?_⟩
            intro x hx hkx
            rcases List.mem_append.mp hx with h3 | h3
            · exact hmle x h3 hkx
            · rcases List.mem_singleton.mp h3 with rfl
              exact le_of_not_lt hsc
        · -- e survives inside c2; its key differs from the key of a.
          have hel : e ∈ collapseBest mode l := by
            rw [hsplit]
            exact List.mem_append_right _ (List.mem_cons_of_mem _ h2)
          obtain ⟨l1, l2, hl, hlt, hle⟩ := ih e hel
          refine ⟨l1, l2 ++ [a], by rw [hl]; simp, hlt, ?_⟩
          intro x hx hkx
          rcases List.mem_append.mp hx with h3 | h3
          · exact hle x h3 hkx
          · rcases List.mem_singleton.mp h3 with rfl
            have : dedupeKey mode b ≠ dedupeKey mode e := hbc2 e h2
            exact absurd (hkb.trans hkx) this
    · push_neg at hex
      rw [updBest_of_no_key mode a _ hex] at he
      rcases List.mem_append.mp he with h1 | h1
      · obtain ⟨l1, l2, hl, hlt, hle⟩ := ih e h1
        refine ⟨l1, l2 ++ [a], by rw [hl]; simp, hlt, ?_⟩
        intro x hx hkx
        rcases List.mem_append.mp hx with h2 | h2
        · exact hle x h2 hkx
        · rcases List.mem_singleton.mp h2 with rfl
          exact absurd hkx.symm (hex e h1)
      · rcases List.mem_singleton.mp h1 with rfl
        refine ⟨l, [], by simp, ?_, by simp⟩
        intro x hx hkx
        obtain ⟨e', he', hke'⟩ := collapseBest_covers mode l x hx
        exact absurd (hke'.trans hkx) (hex e' he')

/-- C3: the deduplicator applies the time-window filter before any
key-based collapsing; an entry is excluded by the window rule exactly when
its timestamp parses and is older than `window_h`; an entry with no
timestamp is never excluded by the window rule. -/
theorem C3_window_filter :
    (∀ (items : List Entry) (mode : String) (w : ℚ),
        dedupe items mode w = collapseBest mode (items.filter (windowKeep w)))
    ∧ (∀ (w : ℚ) (it : Entry),
        windowKeep w it = false ↔ ∃ age, it.published_at = PubDate.valid age ∧ w < age)
    ∧ (∀ (w : ℚ) (it : Entry), it.published_at = PubDate.absent → windowKeep w it = true) := by
  refine ⟨dedupe_eq_collapse, ?_, ?_⟩
  · intro w it
    cases h : it.published_at with
    | absent => simp [windowKeep, h]
    | invalid => simp [windowKeep, h]
    | valid age =>
      simp only [windowKeep, h, decide_eq_false_iff_not, not_le, PubDate.valid.injEq]
      constructor
      · intro hw
        exact ⟨age, rfl, hw⟩
      · rintro ⟨a, rfl, hw⟩
        exact hw
  · intro w it h
    simp [windowKeep, h]

/-- Witness for C3: an entry with no timestamp passes the window filter for
the default 48-hour window, and an entry 100 hours old does not. -/
theorem C3_witness :
    baseEntry.published_at = PubDate.absent
    ∧ windowKeep 48 baseEntry = true
    ∧ windowKeep 48 { baseEntry with published_at := PubDate.valid 100 } = false :=
  ⟨rfl, C3_window_filter.2.2 48 baseEntry rfl,
    (C3_window_filter.2.1 48 _).mpr ⟨100, rfl, by norm_num⟩⟩

/-- C2: among window-surviving entries sharing a composite key the
deduplicator keeps exactly one entry; the kept entry beats every earlier
same-key entry strictly and every later same-key entry weakly (so on equal
scores the first encountered wins); concretely, two entries with identical
canonical URL keep only the higher-scoring one, and of three entries — two
sharing a normalized title with scores 5 and 2, one distinct — mode `title`
keeps two, retaining the score-5 duplicate. -/
theorem C2_dedupe_keep_best :
    (∀ (items : List Entry) (mode : String) (w : ℚ) (e : Entry),
        e ∈ dedupe items mode w →
          ∃ l1 l2, items.filter (windowKeep w) = l1 ++ e :: l2
            ∧ (∀ x ∈ l1, dedupeKey mode x = dedupeKey mode e → x.score < e.score)
            ∧ (∀ x ∈ l2, dedupeKey mode x = dedupeKey mode e → x.score ≤ e.score))
    ∧ (∀ (items : List Entry) (mode : String) (w : ℚ) (b : Entry),
        b ∈ items.filter (windowKeep w) →
          ∃ e, e ∈ dedupe items mode w ∧ dedupeKey mode e = dedupeKey mode b
            ∧ ∀ e', e' ∈ dedupe items mode w → dedupeKey mode e' = dedupeKey mode b → e' = e)
    ∧ dedupe [exUrlLow, exUrlHigh] "url" 48 = [exUrlHigh]
    ∧ dedupe [exT5, exT2, exTD] "title" 48 = [exT5, exTD] := by
  refine ⟨?_, ?_, by decide, by decide⟩
  · intro items mode w e he
    rw [dedupe_eq_collapse] at he
    exact collapseBest_spec mode _ e he
  · intro items mode w b hb
    rw [dedupe_eq_collapse]
    obtain ⟨e, he, hke⟩ := collapseBest_covers mode _ b hb
    refine ⟨e, he, hke, ?_⟩
    intro e' he' hke'
    have hpw := collapseBest_pairwise mode (items.filter (windowKeep w))
    by_contra hne
    have hsym : Symmetric (fun a b : Entry => dedupeKey mode a ≠ dedupeKey mode b) :=
      fun x y h heq => h heq.symm
    exact (hpw.forall hsym he' he hne) (hke'.trans hke.symm)

/-- Witness for C2: instantiating the survivor property on the concrete
three-entry title-mode run. -/
theorem C2_witness :
    exT5 ∈ dedupe [exT5, exT2, exTD] "title" 48
    ∧ ∃ l1 l2, ([exT5, exT2, exTD].filter (windowKeep 48)) = l1 ++ exT5 :: l2
        ∧ (∀ x ∈ l1, dedupeKey "title" x = dedupeKey "title" exT5 → x.score < exT5.score)
        ∧ (∀ x ∈ l2, dedupeKey "title" x = dedupeKey "title" exT5 → x.score ≤ exT5.score) :=
  ⟨by decide, C2_dedupe_keep_best.1 [exT5, exT2, exTD] "title" 48 exT5 (by decide)⟩

/-! ### Helper lemmas for `canonical_url` -/

lemma matchCI_length : ∀ (p l r : List Char), matchCI p l = some r → l.length = p.length + r.length := by
  intro p
  induction p with
  | nil =>
    intro l r h
    simp only [matchCI, Option.some.injEq] at h
    subst h
    simp
  | cons a ps ih =>
    intro l r h
    cases l with
    | nil => simp [matchCI] at h
    | cons c cs =>
      simp only [matchCI] at h
      by_cases hc : a.toLower == c.toLower
      · rw [if_pos hc] at h
        have := ih cs r h
        simp only [List.length_cons]
        omega
      · rw [if_neg hc] at h
        cases h

lemma utmConsume_bound (l : List Char) (n : Nat) (h : utmConsume l = some n) :
    1 ≤ n ∧ n ≤ l.length := by
  unfold utmConsume at h
  cases hm : matchCI ['u', 't', 'm', '_'] l with
  | none => rw [hm] at h; cases h
  | some r1 =>
    rw [hm] at h
    have hlen := matchCI_length _ _ _ hm
    simp only [List.length_cons, List.length_nil] at hlen
    have hnm : (r1.takeWhile (fun c => !(c == '=' || c == '&'))).length ≤ r1.length :=
      (List.takeWhile_sublist _).length_le
    dsimp only at h
    split at h
    · cases h
    · split at h
      next r3 heq =>
        split at h
        · cases h
        · simp only [Option.some.injEq] at h
          subst h
          have hd := congrArg List.length heq
          rw [List.length_drop] at hd
          simp only [List.length_cons] at hd
          have hv : (r3.takeWhile (fun c => !(c == '&'))).length ≤ r3.length :=
            (List.takeWhile_sublist _).length_le
          constructor
          · omega
          · omega
      next heq => cases h

lemma kvConsume_bound (alt l : List Char) (n : Nat) (h : kvConsume alt l = some n) :
    1 ≤ n ∧ n ≤ l.length := by
  unfold kvConsume at h
  cases hm : matchCI alt l with
  | none => rw [hm] at h; cases h
  | some r2 =>
    rw [hm] at h
    have hlen := matchCI_length _ _ _ hm
    dsimp only at h
    split at h
    next r3 =>
      split at h
      · cases h
      · simp only [Option.some.injEq] at h
        subst h
        have hv : (r3.takeWhile (fun c => !(c == '&'))).length ≤ r3.length :=
          (List.takeWhile_sublist _).length_le
        simp only [List.length_cons] at hlen
        constructor
        · omega
        · omega
    next => cases h

lemma altConsume_bound : ∀ (alts : List (List Char)) (l : List Char) (n : Nat),
    altConsume alts l = some n → 1 ≤ n ∧ n ≤ l.length := by
  intro alts
  induction alts with
  | nil => intro l n h; cases h
  | cons a rest ih =>
    intro l n h
    unfold altConsume at h
    cases hk : kvConsume a l with
    | some m =>
      rw [hk] at h
      cases h
      exact kvConsume_bound a l _ hk
    | none =>
      rw [hk] at h
      exact ih l n h

lemma tryUtm_spec : ∀ (l : List Char) (n : Nat) (out : List Char),
    tryUtm l = some (n, out) → out.length < n ∧ n ≤ l.length := by
  intro l n out h
  cases l with
  | nil => cases h
  | cons c cs =>
    simp only [tryUtm] at h
    split at h
    · cases hm : utmConsume cs with
      | none => rw [hm] at h; cases h
      | some m =>
        rw [hm] at h
        simp only [Option.some.injEq, Prod.mk.injEq] at h
        obtain ⟨rfl, rfl⟩ := h
        have := utmConsume_bound cs m hm
        simp only [List.length_cons, List.length_singleton, List.length_nil]
        omega
    · cases h

lemma tryTrack_spec : ∀ (l : List Char) (n : Nat) (out : List Char),
    tryTrack l = some (n, out) → out.length < n ∧ n ≤ l.length := by
  intro l n out h
  cases l with
  | nil => cases h
  | cons c cs =>
    simp only [tryTrack] at h
    split at h
    · cases hm : altConsume trackAlts cs with
      | none => rw [hm] at h; cases h
      | some m =>
        rw [hm] at h
        simp only [Option.some.injEq, Prod.mk.injEq] at h
        obtain ⟨rfl, rfl⟩ := h
        have := altConsume_bound trackAlts cs m hm
        simp only [List.length_cons, List.length_singleton, List.length_nil]
        omega
    · cases h

lemma reSub_length_le (f : List Char → Option (Nat × List Char))
    (hf : ∀ l n out, f l = some (n, out) → out.length < n ∧ n ≤ l.length) :
    ∀ (fuel : Nat) (l : List Char), (reSub f fuel l).length ≤ l.length := by
  intro fuel
  induction fuel with
  | zero => intro l; cases l <;> simp [reSub]
  | succ fu ih =>
    intro l
    cases l with
    | nil => simp [reSub]
    | cons c cs =>
      cases hm : f (c :: cs) with
      | none =>
        simp only [reSub, hm, List.length_cons]
        have := ih cs
        omega
      | some p =>
        obtain ⟨n, out⟩ := p
        simp only [reSub, hm, List.length_append]
        have hb := hf _ _ _ hm
        have hr := ih ((c :: cs).drop n)
        rw [List.length_drop] at hr
        simp only [List.length_cons] at hb hr ⊢
        omega

lemma reSub_eq_of_length (f : List Char → Option (Nat × List Char))
    (hf : ∀ l n out, f l = some (n, out) → out.length < n ∧ n ≤ l.length) :
    ∀ (fuel : Nat) (l : List Char),
      (reSub f fuel l).length = l.length → reSub f fuel l = l := by
  intro fuel
  induction fuel with
  | zero => intro l _; cases l <;> rfl
  | succ fu ih =>
    intro l hlen
    cases l with
    | nil => rfl
    | cons c cs =>
      cases hm : f (c :: cs) with
      | none =>
        simp only [reSub, hm, List.length_cons] at hlen ⊢
        rw [ih cs (by omega)]
      | some p =>
        obtain ⟨n, out⟩ := p
        exfalso
        have hb := hf _ _ _ hm
        have hr := reSub_length_le f hf fu ((c :: cs).drop n)
        rw [List.length_drop] at hr
        simp only [reSub, hm, List.length_append, List.length_cons] at hlen hb hr
        omega

lemma dropTrailingDelim_len (l : List Char) : (dropTrailingDelim l).length ≤ l.length := by
  unfold dropTrailingDelim
  cases hl : l.getLast? with
  | none => exact le_refl _
  | some c =>
    dsimp only
    split_ifs
    · rw [List.length_dropLast]; omega
    · exact le_refl _

lemma dropTrailingDelim_eq_of_len (l : List Char)
    (h : (dropTrailingDelim l).length = l.length) : dropTrailingDelim l = l := by
  unfold dropTrailingDelim at h ⊢
  cases l with
  | nil => rfl
  | cons a as =>
    cases hl : (a :: as).getLast? with
    | none => simp at hl
    | some c =>
      rw [hl] at h
      dsimp only at h ⊢
      split_ifs at h ⊢
      · exfalso
        rw [List.length_dropLast] at h
        simp only [List.length_cons] at h
        omega
      · rfl

lemma canonical_url_length_le (u : String) : (canonical_url u).length ≤ u.length := by
  unfold canonical_url
  split_ifs with h
  · exact le_refl _
  · have h1 := reSub_length_le tryUtm tryUtm_spec u.data.length u.data
    have h2 := reSub_length_le tryTrack tryTrack_spec
      (reSub tryUtm u.data.length u.data).length (reSub tryUtm u.data.length u.data)
    have h3 := dropTrailingDelim_len
      (reSub tryTrack (reSub tryUtm u.data.length u.data).length
        (reSub tryUtm u.data.length u.data))
    show (dropTrailingDelim _).length ≤ u.data.length
    omega

lemma canonical_url_shrinks (u : String) (h : canonical_url u ≠ u) :
    (canonical_url u).length < u.length := by
  by_contra hh
  push_neg at hh
  have hle := canonical_url_length_le u
  have heq : (canonical_url u).length = u.length := le_antisymm hle hh
  apply h
  unfold canonical_url at heq ⊢
  split_ifs at heq ⊢ with h0
  · rfl
  · have e1 := reSub_length_le tryUtm tryUtm_spec u.data.length u.data
    have e2 := reSub_length_le tryTrack tryTrack_spec
      (reSub tryUtm u.data.length u.data).length (reSub tryUtm u.data.length u.data)
    have e3 := dropTrailingDelim_len
      (reSub tryTrack (reSub tryUtm u.data.length u.data).length
        (reSub tryUtm u.data.length u.data))
    have q : (dropTrailingDelim
        (reSub tryTrack (reSub tryUtm u.data.length u.data).length
          (reSub tryUtm u.data.length u.data))).length = u.data.length := heq
    have q1 : (reSub tryUtm u.data.length u.data).length = u.data.length := by omega
    have q2 : (reSub tryTrack (reSub tryUtm u.data.length u.data).length
        (reSub tryUtm u.data.length u.data)).length
        = (reSub tryUtm u.data.length u.data).length := by omega
    have q3 : (dropTrailingDelim
        (reSub tryTrack (reSub tryUtm u.data.length u.data).length
          (reSub tryUtm u.data.length u.data))).length
        = (reSub tryTrack (reSub tryUtm u.data.length u.data).length
            (reSub tryUtm u.data.length u.data)).length := by omega
    show String.mk (dropTrailingDelim _) = u
    rw [dropTrailingDelim_eq_of_len _ q3, reSub_eq_of_length tryTrack tryTrack_spec _ _ q2,
      reSub_eq_of_length tryUtm tryUtm_spec _ _ q1]

lemma canonical_url_iterate_fix : ∀ (k : Nat) (u : String), u.length ≤ k →
    canonical_url (canonical_url^[k] u) = canonical_url^[k] u := by
  intro k
  induction k with
  | zero =>
    intro u hu
    have hd : u.data = [] := List.length_eq_zero.mp (Nat.le_zero.mp hu)
    have hu0 : u = "" := String.ext hd
    subst hu0
    rfl
  | succ kk ih =>
    intro u hu
    by_cases hfix : canonical_url u = u
    · rw [Function.iterate_fixed hfix]
      exact hfix
    · have hlt := canonical_url_shrinks u hfix
      rw [Function.iterate_succ_apply]
      exact ih (canonical_url u) (by omega)

/-- C5 counterexample: `canonical_url` is not idempotent.  On
`"http://x?utm_a=b&utm_c=d"` one application yields `"http://x?"` (both
`utm` parameters are stripped but only one dangling delimiter is removed),
and a second application yields `"http://x"`. -/
theorem C5_counterexample :
    canonical_url (canonical_url "http://x?utm_a=b&utm_c=d")
      ≠ canonical_url "http://x?utm_a=b&utm_c=d" := by decide

/-- C5 (amended): each application of `canonical_url` only removes
characters, and iterating it `u.length` times reaches a fixed point — the
function is convergent under iteration although not idempotent. -/
theorem C5_canonical_iteration (u : String) :
    (canonical_url u).length ≤ u.length
    ∧ canonical_url (canonical_url^[u.length] u) = canonical_url^[u.length] u :=
  ⟨canonical_url_length_le u, canonical_url_iterate_fix u.length u (le_refl _)⟩

/-! ### Helper lemmas for the diversity compressor -/

lemma diversityScan_subset (target : ℕ) (axes : List String) :
    ∀ (l chosen : List Entry) (seen : List (List String × ℕ)) (e : Entry),
      e ∈ diversityScan target axes l chosen seen → e ∈ chosen ∨ e ∈ l := by
  intro l
  induction l with
  | nil =>
    intro chosen seen e he
    simp only [diversityScan] at he
    exact Or.inl he
  | cons it rest ih =>
    intro chosen seen e he
    simp only [diversityScan] at he
    split at he
    · split at he
      · rcases List.mem_append.mp he with h1 | h1
        · exact Or.inl h1
        · exact Or.inr (List.mem_cons.mpr (Or.inl (List.mem_singleton.mp h1)))
      · rcases ih _ _ e he with h1 | h1
        · rcases List.mem_append.mp h1 with h2 | h2
          · exact Or.inl h2
          · exact Or.inr (List.mem_cons.mpr (Or.inl (List.mem_singleton.mp h2)))
        · exact Or.inr (List.mem_cons_of_mem _ h1)
    · rcases ih _ _ e he with h1 | h1
      · exact Or.inl h1
      · exact Or.inr (List.mem_cons_of_mem _ h1)

lemma diversityScan_length_le (target : ℕ) (axes : List String) :
    ∀ (l chosen : List Entry) (seen : List (List String × ℕ)),
      chosen.length < target →
      (diversityScan target axes l chosen seen).length ≤ target := by
  intro l
  induction l with
  | nil =>
    intro chosen seen h
    simp only [diversityScan]
    omega
  | cons it rest ih =>
    intro chosen seen h
    simp only [diversityScan]
    split
    · split
      next hb =>
        simp only [List.length_append, List.length_singleton] at hb ⊢
        omega
      next hb =>
        apply ih
        simp only [List.length_append, List.length_singleton] at hb ⊢
        omega
    · exact ih chosen seen h

lemma sortDescScore_perm (items : List Entry) : List.Perm (sortDescScore items) items :=
  List.perm_insertionSort _ items

lemma sortDescScore_sorted (items : List Entry) :
    List.Sorted (fun a b : Entry => b.score ≤ a.score) (sortDescScore items) := by
  haveI ht : IsTotal Entry (fun a b => b.score ≤ a.score) := ⟨fun a b => le_total b.score a.score⟩
  haveI htr : IsTrans Entry (fun a b => b.score ≤ a.score) :=
    ⟨fun a b c h1 h2 => le_trans h2 h1⟩
  exact List.sorted_insertionSort _ items

/-- C4 counterexample: as stated the claim fails.  With `target = 0` and a
nonempty input the scan still admits one entry (the break is only checked
after an append), so more than `target` items are returned; and with
duplicate entries the top-up pool `[it for it in items if it not in chosen]`
is empty, so fewer than `min(target, len(input))` items are returned. -/
theorem C4_counterexample :
    ¬ ((compress_diverse [cEnt] 0 ["country", "theme", "source"]).length ≤ 0)
    ∧ ¬ (min 2 ([cEnt, cEnt, cEnt] : List Entry).length
          ≤ (compress_diverse [cEnt, cEnt, cEnt] 2 ["country", "theme", "source"]).length) := by
  constructor
  · decide
  · decide

/-- C4 (amended): the compressor returns its input unchanged whenever the
input length is at most `target`; and provided `target ≥ 1` and the input
has no duplicate entries (which is the case for the deduplicated lists it
receives in the pipeline), it returns at most `target` and at least
`min(target, length of input)` entries. -/
theorem C4_compress_bounds :
    ∀ (items : List Entry) (target : ℕ) (axes : List String),
      (items.length ≤ target → compress_diverse items target axes = items)
      ∧ (1 ≤ target → items.Nodup →
          (compress_diverse items target axes).length ≤ target
          ∧ min target items.length ≤ (compress_diverse items target axes).length) := by
  intro items target axes
  constructor
  · intro h
    unfold compress_diverse
    rw [if_pos h]
  · intro ht hnd
    by_cases hlen : items.length ≤ target
    · unfold compress_diverse
      rw [if_pos hlen]
      omega
    · unfold compress_diverse
      rw [if_neg hlen]
      have hperm := sortDescScore_perm items
      have hslen : (sortDescScore items).length = items.length := hperm.length_eq
      have hsnd : (sortDescScore items).Nodup := hperm.nodup_iff.mpr hnd
      by_cases hc : (diversityScan target axes (sortDescScore items) [] []).length < target
      · rw [if_pos hc]
        have hsplit := List.length_eq_length_filter_add (l := sortDescScore items)
          (fun it => decide (it ∉ diversityScan target axes (sortDescScore items) [] []))
        have hcompl : ((sortDescScore items).filter
            (fun it => !(decide (it ∉ diversityScan target axes (sortDescScore items) [] [])))).length
            ≤ (diversityScan target axes (sortDescScore items) [] []).length := by
          apply List.Subperm.length_le
          apply List.subperm_of_subset (hsnd.filter _)
          intro x hx
          have := List.of_mem_filter hx
          simp only [Bool.not_eq_true', decide_eq_false_iff_not, not_not] at this
          exact this
        rw [List.length_append, List.length_take]
        omega
      · rw [if_neg hc]
        have := diversityScan_length_le target axes (sortDescScore items) [] []
          (by simpa using ht)
        omega

/-- Witness for C4 on three pairwise-distinct entries and target 2. -/
theorem C4_witness :
    (1 : ℕ) ≤ 2 ∧ ([p1, p2, p3] : List Entry).Nodup
    ∧ (compress_diverse [p1, p2, p3] 2 ["country", "theme", "source"]).length ≤ 2
    ∧ min 2 ([p1, p2, p3] : List Entry).length
        ≤ (compress_diverse [p1, p2, p3] 2 ["country", "theme", "source"]).length :=
  ⟨by decide, by decide,
    ((C4_compress_bounds [p1, p2, p3] 2 ["country", "theme", "source"]).2
      (by decide) (by decide)).1,
    ((C4_compress_bounds [p1, p2, p3] 2 ["country", "theme", "source"]).2
      (by decide) (by decide)).2⟩

lemma compress_diverse_subset (items : List Entry) (target : ℕ) (axes : List String) :
    ∀ e ∈ compress_diverse items target axes, e ∈ items := by
  intro e he
  unfold compress_diverse at he
  split at he
  · exact he
  · split at he
    · rcases List.mem_append.mp he with h1 | h1
      · rcases diversityScan_subset _ _ _ _ _ _ h1 with h2 | h2
        · simp at h2
        · exact (sortDescScore_perm items).subset h2
      · have h2 := List.mem_of_mem_take h1
        have h3 := List.mem_of_mem_filter h2
        exact (sortDescScore_perm items).subset h3
    · rcases diversityScan_subset _ _ _ _ _ _ he with h2 | h2
      · simp at h2
      · exact (sortDescScore_perm items).subset h2

lemma compress_subset (items : List Entry) (target : ℕ) (method : String)
    (axes : List String) : ∀ e ∈ compress items target method axes, e ∈ items := by
  intro e he
  unfold compress at he
  split at he
  · exact compress_diverse_subset items target axes e he
  · exact (sortDescScore_perm items).subset (List.mem_of_mem_take he)

/-- C10: after deduplication the pipeline truncates to the first
`overall_max` entries of the descending-by-score sort: the capped list has
at most `overall_max` entries, is sorted by descending score, dominates
every dropped entry, and the final output (after compression) only contains
entries of the capped list. -/
theorem C10_overall_cap :
    ∀ (items : List Entry) (mode : String) (w : ℚ) (m target : ℕ)
      (method : String) (axes : List String),
      (capOverall (dedupe items mode w) m).length ≤ m
      ∧ List.Sorted (fun a b : Entry => b.score ≤ a.score) (capOverall (dedupe items mode w) m)
      ∧ (∃ rest, sortDescScore (dedupe items mode w) = capOverall (dedupe items mode w) m ++ rest
           ∧ ∀ a ∈ capOverall (dedupe items mode w) m, ∀ b ∈ rest, b.score ≤ a.score)
      ∧ (∀ e ∈ collectTail items mode w m target method axes,
          e ∈ capOverall (dedupe items mode w) m) := by
  intro items mode w m target method axes
  refine ⟨?_, ?_, ?_, ?_⟩
  · unfold capOverall
    simp [List.length_take_le]
  · unfold capOverall
    exact (sortDescScore_sorted _).sublist (List.take_sublist m _)
  · refine ⟨(sortDescScore (dedupe items mode w)).drop m,
      (List.take_append_drop m _).symm, ?_⟩
    intro a ha b hb
    have hs := sortDescScore_sorted (dedupe items mode w)
    rw [← List.take_append_drop m (sortDescScore (dedupe items mode w))] at hs
    exact (List.pairwise_append.mp hs).2.2 a ha b hb
  · intro e he
    unfold collectTail at he
    exact compress_subset _ _ _ _ e he

/-- Witness for C10 on three entries with scores 9, 5, 1 and
`overall_max = 2`. -/
theorem C10_witness :
    p1 ∈ collectTail [p1, p2, p3] "title" 48 2 5 "salience+diversity"
      ["country", "theme", "source"]
    ∧ p1 ∈ capOverall (dedupe [p1, p2, p3] "title" 48) 2 :=
  ⟨by decide,
    (C10_overall_cap [p1, p2, p3] "title" 48 2 5 "salience+diversity"
      ["country", "theme", "source"]).2.2.2 p1 (by decide)⟩

/-! ### Tagging and entity lemmas -/

lemma tagLoop_eq_find : ∀ (table : List (String × List String)) (text dflt : String),
    tagLoop table text dflt
      = ((table.find? (fun g => g.2.any (fun k => strHas k text))).map Prod.fst).getD dflt := by
  intro table text dflt
  induction table with
  | nil => rfl
  | cons g rest ih =>
    obtain ⟨c, keys⟩ := g
    cases h : keys.any (fun k => strHas k text) with
    | true => simp [tagLoop, List.find?_cons, h]
    | false => simp [tagLoop, List.find?_cons, h, ih]

/-- C6 counterexample: the fallback label of `tag_country` is the French
`"Autres"`, not `"Other"`. -/
theorem C6_counterexample :
    tag_country "Local bakery wins award" "" = "Autres"
    ∧ tag_country "Local bakery wins award" "" ≠ "Other" := by
  constructor
  · decide
  · decide

/-- C6 (amended): `tag_country` and `tag_theme` lower-case the
space-joined concatenation of title and summary and return the label of
the first keyword group in table order with a matching keyword, falling
back to `"Autres"` / `"Général"` (the French fallbacks of the source, not
"Other"/"General"); `tag_country` maps the Iran headline to `"Iran"` and
the unrelated headline to `"Autres"`. -/
theorem C6_tagging :
    (∀ title summary : String,
       tag_country title summary
         = ((COUNTRY_TAGS.find? (fun g => g.2.any (fun k =>
              strHas k (pyLower (title ++ " " ++ summary))))).map Prod.fst).getD "Autres"
       ∧ tag_theme title summary
         = ((THEME_TAGS.find? (fun g => g.2.any (fun k =>
              strHas k (pyLower (title ++ " " ++ summary))))).map Prod.fst).getD "Général")
    ∧ tag_country "Iran warns of retaliation" "Tehran officials say..." = "Iran"
    ∧ tag_country "Local bakery wins award" "" = "Autres" := by
  refine ⟨?_, by decide, by decide⟩
  intro title summary
  exact ⟨tagLoop_eq_find _ _ _, tagLoop_eq_find _ _ _⟩

lemma char_toNat_inj (a b : Char) (h : a.toNat = b.toNat) : a = b := by
  have hv : a.val = b.val := by
    unfold Char.toNat at h
    exact UInt32.toNat.inj h
  exact Char.eq_of_val_eq hv

lemma chLt_irrefl : ∀ (a : List Char), chLt a a = false := by
  intro a
  induction a with
  | nil => rfl
  | cons x xs ih =>
    simp only [chLt, Bool.or_eq_false_iff, Bool.and_eq_false_iff]
    constructor
    · simp only [Bool.eq_false_iff, ne_eq, Nat.blt_eq]
      omega
    · right
      exact ih

lemma chLt_trans : ∀ (a b c : List Char),
    chLt a b = true → chLt b c = true → chLt a c = true := by
  intro a
  induction a with
  | nil =>
    intro b c hab hbc
    cases b with
    | nil => cases hab
    | cons y ys =>
      cases c with
      | nil => cases hbc
      | cons z zs => rfl
  | cons x xs ih =>
    intro b c hab hbc
    cases b with
    | nil => cases hab
    | cons y ys =>
      cases c with
      | nil => cases hbc
      | cons z zs =>
        simp only [chLt, Bool.or_eq_true, Bool.and_eq_true, beq_iff_eq, Nat.blt_eq] at hab hbc ⊢
        rcases hab with h1 | ⟨rfl, h1⟩
        · rcases hbc with h2 | ⟨rfl, h2⟩
          · exact Or.inl (lt_trans h1 h2)
          · exact Or.inl h1
        · rcases hbc with h2 | ⟨rfl, h2⟩
          · exact Or.inl h2
          · exact Or.inr ⟨by trivial, ih ys zs h1 h2⟩

lemma chLt_total : ∀ (a b : List Char), a = b ∨ chLt a b = true ∨ chLt b a = true := by
  intro a
  induction a with
  | nil =>
    intro b
    cases b with
    | nil => exact Or.inl rfl
    | cons y ys => exact Or.inr (Or.inl rfl)
  | cons x xs ih =>
    intro b
    cases b with
    | nil => exact Or.inr (Or.inr rfl)
    | cons y ys =>
      rcases Nat.lt_trichotomy x.toNat y.toNat with h | h | h
      · refine Or.inr (Or.inl ?_)
        simp only [chLt, Bool.or_eq_true, Nat.blt_eq]
        exact Or.inl h
      · have hxy : x = y := char_toNat_inj x y h
        subst hxy
        rcases ih ys with h2 | h2 | h2
        · exact Or.inl (by rw [h2])
        · refine Or.inr (Or.inl ?_)
          simp only [chLt, Bool.or_eq_true, Bool.and_eq_true, beq_iff_eq]
          exact Or.inr ⟨by trivial, h2⟩
        · refine Or.inr (Or.inr ?_)
          simp only [chLt, Bool.or_eq_true, Bool.and_eq_true, beq_iff_eq]
          exact Or.inr ⟨by trivial, h2⟩
      · refine Or.inr (Or.inr ?_)
        simp only [chLt, Bool.or_eq_true, Nat.blt_eq]
        exact Or.inl h

lemma insSD_mem : ∀ (a : String) (l : List String) (x : String),
    x ∈ insSD a l ↔ x = a ∨ x ∈ l := by
  intro a l
  induction l with
  | nil => intro x; simp [insSD]
  | cons b bs ih =>
    intro x
    simp only [insSD]
    split_ifs with h1 h2
    · simp [List.mem_cons]
    · subst h2
      simp only [List.mem_cons]
      tauto
    · simp only [List.mem_cons, ih]
      tauto

lemma insSD_pairwise (a : String) : ∀ (l : List String),
    l.Pairwise (fun x y => strLtB x y = true) →
    (insSD a l).Pairwise (fun x y => strLtB x y = true) := by
  intro l
  induction l with
  | nil => intro _; simp [insSD]
  | cons b bs ih =>
    intro hp
    rw [List.pairwise_cons] at hp
    obtain ⟨hb, hbs⟩ := hp
    simp only [insSD]
    split_ifs with h1 h2
    · rw [List.pairwise_cons]
      refine ⟨?_, List.pairwise_cons.mpr ⟨hb, hbs⟩⟩
      intro y hy
      rcases List.mem_cons.mp hy with rfl | hy'
      · exact h1
      · exact chLt_trans _ _ _ h1 (hb y hy')
    · exact List.pairwise_cons.mpr ⟨hb, hbs⟩
    · rw [List.pairwise_cons]
      refine ⟨?_, ih hbs⟩
      intro y hy
      rcases (insSD_mem a bs y).mp hy with rfl | hy'
      · rcases chLt_total b.data y.data with h3 | h3 | h3
        · exact absurd (String.ext h3) (fun he => h2 he.symm)
        · exact h3
        · exact absurd h3 (by simpa [strLtB] using h1)
      · exact hb y hy'

lemma sortDedup_pairwise : ∀ (l : List String),
    (sortDedup l).Pairwise (fun x y => strLtB x y = true) := by
  intro l
  induction l with
  | nil => simp [sortDedup]
  | cons a l ih => exact insSD_pairwise a _ ih

lemma sortDedup_mem : ∀ (l : List String) (x : String), x ∈ sortDedup l ↔ x ∈ l := by
  intro l
  induction l with
  | nil => intro x; simp [sortDedup]
  | cons a l ih =>
    intro x
    show x ∈ insSD a (sortDedup l) ↔ _
    rw [insSD_mem, ih]
    simp

/-- C8 counterexample: the label collected for the first pattern is
`"IAEA\B|\BAIEA"` — `str.strip` removes only the leading and trailing
`\`/`b` characters, so the interior word-boundary markers survive (with
their `b` uppercased), contradicting the claim that the `\b` markers are
stripped from the labels. -/
theorem C8_counterexample :
    extract_entities "IAEA report" = ["IAEA\\B|\\BAIEA"]
    ∧ '\\' ∈ ("IAEA\\B|\\BAIEA").data := by
  constructor
  · decide
  · decide

/-- C8 (amended): `extract_entities` returns, sorted by code point and
without duplicates, the labels of the patterns with a word-boundary match
in the text, where a label is the pattern source with only the leading and
trailing `\`/`b` characters stripped and the remainder uppercased (interior
`\b` markers survive as `\B`). -/
theorem C8_entities :
    (∀ txt : String, (extract_entities txt).Pairwise (fun x y => strLtB x y = true)
      ∧ (extract_entities txt).Nodup)
    ∧ (∀ (txt : String) (s : String), s ∈ extract_entities txt
         ↔ ∃ p ∈ entityPatterns, p.2.any (fun w => reSearchWord w txt) = true
             ∧ s = entityLabel p.1)
    ∧ extract_entities "Hezbollah and the IDF" = ["HEZBOLLAH", "IDF"] := by
  refine ⟨?_, ?_, by decide⟩
  · intro txt
    have hp := sortDedup_pairwise ((entityPatterns.filter
      (fun p => p.2.any (fun w => reSearchWord w txt))).map (fun p => entityLabel p.1))
    refine ⟨hp, ?_⟩
    refine List.Pairwise.imp ?_ hp
    intro x y hxy
    intro he
    subst he
    rw [show strLtB x x = chLt x.data x.data from rfl, chLt_irrefl] at hxy
    cases hxy
  · intro txt s
    unfold extract_entities
    rw [sortDedup_mem]
    simp only [List.mem_map, List.mem_filter]
    constructor
    · rintro ⟨p, ⟨hp, hm⟩, rfl⟩
      exact ⟨p, hp, hm, rfl⟩
    · rintro ⟨p, hp, hm, rfl⟩
      exact ⟨p, ⟨hp, hm⟩, rfl⟩

/-! ### Projection lemmas -/

lemma dictKeys_dictSet {α : Type} :
    ∀ (d : List (String × α)) (k : String) (v : α) (k' : String),
      k' ∈ dictKeys (dictSet d k v) ↔ k' ∈ dictKeys d ∨ k' = k := by
  intro d k v
  induction d with
  | nil => intro k'; simp [dictSet, dictKeys]
  | cons p rest ih =>
    intro k'
    obtain ⟨kk, vv⟩ := p
    simp only [dictSet]
    split_ifs with h
    · subst h
      simp only [dictKeys, List.map_cons, List.mem_cons]
      tauto
    · simp only [dictKeys, List.map_cons, List.mem_cons] at *
      rw [ih]
      tauto

lemma dictGet?_dictSet_self {α : Type} :
    ∀ (d : List (String × α)) (k : String) (v : α),
      dictGet? (dictSet d k v) k = some v := by
  intro d k v
  induction d with
  | nil => simp [dictSet, dictGet?]
  | cons p rest ih =>
    obtain ⟨kk, vv⟩ := p
    simp only [dictSet]
    split_ifs with h
    · subst h
      simp [dictGet?]
    · simp only [dictGet?, if_neg h]
      exact ih

lemma dictGet?_dictSet_other {α : Type} :
    ∀ (d : List (String × α)) (k k' : String) (v : α),
      k' ≠ k → dictGet? (dictSet d k v) k' = dictGet? d k' := by
  intro d k k' v hne
  induction d with
  | nil =>
    simp only [dictSet, dictGet?]
    rw [if_neg (fun h => hne h.symm)]
  | cons p rest ih =>
    obtain ⟨kk, vv⟩ := p
    simp only [dictSet]
    split_ifs with h
    · subst h
      simp only [dictGet?]
      rw [if_neg (fun hh => hne hh.symm), if_neg (fun hh => hne hh.symm)]
    · simp only [dictGet?]
      split_ifs with h2
      · rfl
      · exact ih

lemma projRow_keys (it : List (String × PyVal)) :
    ∀ (fields : List String) (row0 : List (String × PyVal)) (k : String),
      k ∈ dictKeys (fields.foldl (fun row f => dictSet row f (projField it f)) row0)
        ↔ k ∈ dictKeys row0 ∨ k ∈ fields := by
  intro fields
  induction fields with
  | nil => intro row0 k; simp
  | cons f rest ih =>
    intro row0 k
    simp only [List.foldl_cons]
    rw [ih, dictKeys_dictSet]
    simp only [List.mem_cons]
    tauto

lemma projRow_get (it : List (String × PyVal)) :
    ∀ (fields : List String) (row0 : List (String × PyVal)) (k : String),
      dictGet? (fields.foldl (fun row f => dictSet row f (projField it f)) row0) k
        = if k ∈ fields then some (projField it k) else dictGet? row0 k := by
  intro fields
  induction fields with
  | nil => intro row0 k; simp
  | cons f rest ih =>
    intro row0 k
    simp only [List.foldl_cons]
    rw [ih]
    by_cases hk : k ∈ rest
    · rw [if_pos hk, if_pos (List.mem_cons_of_mem _ hk)]
    · rw [if_neg hk]
      by_cases hf : k = f
      · subst hf
        rw [dictGet?_dictSet_self, if_pos (List.mem_cons_self _ _)]
      · rw [dictGet?_dictSet_other _ _ _ _ hf,
          if_neg (by simp [List.mem_cons, hf, hk])]

lemma projField_absent (it : List (String × PyVal)) (f : String)
    (h : dictGet? it f = Option.none) :
    projField it f = if f = "entities" then PyVal.strs [] else PyVal.null := by
  unfold projField
  split_ifs with h1 h2 h3 h4 h5 h6 h7 h8 h9 <;> subst_vars <;> simp_all

/-- C7: for every entry dict whose stored score is absent or numeric, the
projector returns a row whose keys are exactly the requested fields plus
the bookkeeping fields `score` and `source_url`; a requested field absent
from the entry (unknown names included) projects as null (empty list for
`entities`) and the projection never fails. -/
theorem C7_projection :
    ∀ (fields : List String) (it : List (String × PyVal)),
      (dictGet? it "score" = Option.none ∨ ∃ q, dictGet? it "score" = some (PyVal.num q)) →
      ∃ row, project_row fields it = some row
        ∧ (∀ k, k ∈ dictKeys row ↔ k ∈ fields ∨ k = "score" ∨ k = "source_url")
        ∧ (∀ f ∈ fields, dictGet? it f = Option.none → f ≠ "score" → f ≠ "source_url" →
            dictGet? row f = some (if f = "entities" then PyVal.strs [] else PyVal.null)) := by
  intro fields it hsc
  have hq : ∃ q, floatOfVal (dictGet? it "score") = some q := by
    rcases hsc with h | ⟨q, h⟩
    · exact ⟨0, by rw [h]; rfl⟩
    · exact ⟨q, by rw [h]; rfl⟩
  obtain ⟨q, hq⟩ := hq
  refine ⟨dictSet (dictSet (fields.foldl (fun row f => dictSet row f (projField it f)) [])
      "score" (PyVal.num (round4 q))) "source_url"
      ((dictGet? it "source_url").getD PyVal.null), ?_, ?_, ?_⟩
  · unfold project_row
    rw [hq]
  · intro k
    rw [dictKeys_dictSet, dictKeys_dictSet, projRow_keys]
    simp only [dictKeys, List.map_nil, List.mem_nil_iff]
    tauto
  · intro f hf hnone hns hnsu
    rw [dictGet?_dictSet_other _ _ _ _ hnsu, dictGet?_dictSet_other _ _ _ _ hns,
      projRow_get, if_pos hf, projField_absent it f hnone]

/-- Witness for C7: the concrete entry dict with score 5 and
`include_fields = ["title", "url"]`. -/
theorem C7_witness :
    (dictGet? projExDict "score" = Option.none
      ∨ ∃ q, dictGet? projExDict "score" = some (PyVal.num q))
    ∧ ∃ row, project_row ["title", "url"] projExDict = some row
        ∧ (∀ k, k ∈ dictKeys row ↔ k ∈ ["title", "url"] ∨ k = "score" ∨ k = "source_url")
        ∧ (∀ f ∈ ["title", "url"], dictGet? projExDict f = Option.none →
            f ≠ "score" → f ≠ "source_url" →
            dictGet? row f = some (if f = "entities" then PyVal.strs [] else PyVal.null)) :=
  ⟨Or.inr ⟨5, rfl⟩, C7_projection ["title", "url"] projExDict (Or.inr ⟨5, rfl⟩)⟩

/-! ### Fetch lemmas -/

lemma fetch_filterMap (unesc : String → String) (d : RawFeed) (url : String) :
    ∀ (l : List RawItem),
      (l.filterMap (fun e =>
        if norm_text unesc e.title = "" ∨ canonical_url e.link = "" then Option.none
        else some (mkFetched unesc d url e)))
      = (l.filter (fun e =>
          decide (¬ (norm_text unesc e.title = "" ∨ canonical_url e.link = "")))).map
          (mkFetched unesc d url) := by
  intro l
  induction l with
  | nil => rfl
  | cons e rest ih =>
    by_cases h : norm_text unesc e.title = "" ∨ canonical_url e.link = ""
    · rw [List.filterMap_cons, if_pos h, List.filter_cons, if_neg (by simpa using h.resolve_left), ih]
    · rw [List.filterMap_cons, if_neg h, List.filter_cons, if_pos (by simpa using h),
        List.map_cons, ih]

/-- C9: a feed whose retrieval or parse fails contributes zero items (the
exception is caught, so a single feed's failure cannot abort the run); in a
successfully parsed feed, exactly the items with a non-empty normalized
title and a non-empty canonicalized link survive, so every produced entry
has a non-empty title and url. -/
theorem C9_fetch_isolation :
    ∀ (unesc : String → String) (parsed : Except String RawFeed) (url : String) (m : ℕ),
      (∀ err, parsed = Except.error err → (fetch_one_feed unesc parsed url m).2 = [])
      ∧ (∀ d, parsed = Except.ok d →
          (fetch_one_feed unesc parsed url m).2
            = ((d.entries.take m).filter (fun e =>
                decide (¬ (norm_text unesc e.title = "" ∨ canonical_url e.link = "")))).map
                (mkFetched unesc d url)
          ∧ ∀ fi ∈ (fetch_one_feed unesc parsed url m).2, fi.title ≠ "" ∧ fi.url ≠ "") := by
  intro unesc parsed url m
  constructor
  · intro err herr
    subst herr
    rfl
  · intro d hd
    subst hd
    constructor
    · exact fetch_filterMap unesc d url _
    · intro fi hfi
      simp only [fetch_one_feed] at hfi
      rw [fetch_filterMap] at hfi
      obtain ⟨e, he, rfl⟩ := List.mem_map.mp hfi
      have hcond := List.of_mem_filter he
      rw [decide_eq_true_iff] at hcond
      push_neg at hcond
      exact ⟨hcond.1, hcond.2⟩

/-- Witness for C9: a failing parse yields zero items; the concrete feed
with one well-formed and one malformed item yields exactly the well-formed
entry, with non-empty title and url. -/
theorem C9_witness :
    (fetch_one_feed (fun s => s) (Except.error "boom") "u" 20).2 = []
    ∧ (fetch_one_feed (fun s => s) (Except.ok exFeed) "u" 20).2
        = ((exFeed.entries.take 20).filter (fun e =>
            decide (¬ (norm_text (fun s => s) e.title = ""
              ∨ canonical_url e.link = "")))).map (mkFetched (fun s => s) exFeed "u") :=
  ⟨(C9_fetch_isolation (fun s => s) (Except.error "boom") "u" 20).1 "boom" rfl,
   ((C9_fetch_isolation (fun s => s) (Except.ok exFeed) "u" 20).2 exFeed rfl).1⟩
